import Mathlib

/-
Verification of the graph-diffusion-distance (GDD) engine in
src/Diffusion/GDD_weighted_diffusion.py.

The Python source is shallowly embedded:
  * the distributed work partitioners (distribute_nodes, distribute_pathways,
    distribute_runs) become pure functions on lists, with Python slices
    nodes[start:end] rendered as drop/take;
  * graphs (networkx.Graph instances) become an explicit structure of a node
    list and an undirected weighted edge list over exact rationals;
  * perturbation operators become functions from graphs to graphs; statements
    that can raise (G[node] on a missing node) live in Except;
  * the kernel computations over floats become computations over ℝ, with
    numpy eigendecomposition output modelled by its contract (an orthogonal
    eigenvector matrix and real eigenvalues reproducing the input matrix).
-/

/-! ## Distributed work partitioners (source lines 509-543) -/

/-- Embedding of `distribute_nodes(nodes, rank, size)`: the Python slice
`nodes[start_index:end_index]` is rendered as `(drop start).take (end - start)`. -/
def distribute_nodes (nodes : List String) (rank size : Nat) : List String :=
  let num_nodes := nodes.length
  let nodes_per_proc := num_nodes / size
  let remainder := num_nodes % size
  if rank < remainder then
    (nodes.drop (rank * (nodes_per_proc + 1))).take (nodes_per_proc + 1)
  else
    (nodes.drop (remainder * (nodes_per_proc + 1) + (rank - remainder) * nodes_per_proc)).take
      nodes_per_proc

/-- Embedding of `distribute_pathways(pathways, rank, size)`; the body is the
same slicing computation as `distribute_nodes`. -/
def distribute_pathways (pathways : List String) (rank size : Nat) : List String :=
  let num_pathways := pathways.length
  let pathways_per_proc := num_pathways / size
  let remainder := num_pathways % size
  if rank < remainder then
    (pathways.drop (rank * (pathways_per_proc + 1))).take (pathways_per_proc + 1)
  else
    (pathways.drop
      (remainder * (pathways_per_proc + 1) + (rank - remainder) * pathways_per_proc)).take
      pathways_per_proc

/-- Embedding of `distribute_runs(total_runs, rank, size)`: Python
`range(start_run, end_run)` is rendered as `List.range' start (end - start)`;
the last rank takes all remaining runs. -/
def distribute_runs (total_runs rank size : Nat) : List Nat :=
  let runs_per_rank := total_runs / size
  let start_run := rank * runs_per_rank
  if rank ≠ size - 1 then List.range' start_run runs_per_rank
  else List.range' start_run (total_runs - start_run)

/-- Start index of rank `r`'s block in the `distribute_nodes` /
`distribute_pathways` partition of `n` items over `size` ranks. -/
def blockStart (n size r : Nat) : Nat :=
  min r (n % size) * (n / size + 1) + (r - min r (n % size)) * (n / size)

theorem blockStart_zero (n size : Nat) : blockStart n size 0 = 0 := by
  simp [blockStart]

theorem blockStart_le_succ (n size r : Nat) :
    blockStart n size r ≤ blockStart n size (r + 1) := by
  unfold blockStart
  rcases Nat.lt_or_ge r (n % size) with hlt | hge
  · have e1 : min r (n % size) = r := by omega
    have e2 : min (r + 1) (n % size) = r + 1 := by omega
    rw [e1, e2]
    simp only [Nat.sub_self, Nat.zero_mul, Nat.add_zero]
    exact mul_le_mul_right' (Nat.le_succ r) _
  · have e1 : min r (n % size) = n % size := by omega
    have e2 : min (r + 1) (n % size) = n % size := by omega
    rw [e1, e2]
    exact Nat.add_le_add_left (mul_le_mul_right' (by omega) _) _

theorem blockStart_mono (n size : Nat) : Monotone (blockStart n size) :=
  monotone_nat_of_le_succ (blockStart_le_succ n size)

theorem blockStart_size (n size : Nat) (hsize : 0 < size) : blockStart n size size = n := by
  have hrem : n % size < size := Nat.mod_lt _ hsize
  have hdm : size * (n / size) + n % size = n := Nat.div_add_mod n size
  unfold blockStart
  rw [min_eq_right hrem.le, Nat.mul_succ, Nat.sub_mul]
  have hle : (n % size) * (n / size) ≤ size * (n / size) := mul_le_mul_right' hrem.le _
  omega

theorem blockStart_succ_sub (n size r : Nat) :
    blockStart n size (r + 1) - blockStart n size r =
      if r < n % size then n / size + 1 else n / size := by
  unfold blockStart
  rcases Nat.lt_or_ge r (n % size) with hlt | hge
  · have e1 : min r (n % size) = r := by omega
    have e2 : min (r + 1) (n % size) = r + 1 := by omega
    rw [e1, e2, if_pos hlt]
    simp [Nat.succ_mul]
  · have e1 : min r (n % size) = n % size := by omega
    have e2 : min (r + 1) (n % size) = n % size := by omega
    have e3 : r + 1 - n % size = (r - n % size) + 1 := by omega
    rw [e1, e2, e3, if_neg (by omega), Nat.succ_mul]
    generalize n / size = b
    generalize n % size = a
    generalize a * (b + 1) = c
    generalize (r - a) * b = d
    omega

theorem distribute_nodes_eq_slice (nodes : List String) (size r : Nat) :
    distribute_nodes nodes r size =
      (nodes.drop (blockStart nodes.length size r)).take
        (blockStart nodes.length size (r + 1) - blockStart nodes.length size r) := by
  unfold distribute_nodes
  rw [blockStart_succ_sub]
  unfold blockStart
  rcases Nat.lt_or_ge r (nodes.length % size) with hlt | hge
  · have e1 : min r (nodes.length % size) = r := by omega
    rw [if_pos hlt, if_pos hlt, e1]
    simp
  · have e1 : min r (nodes.length % size) = nodes.length % size := by omega
    rw [if_neg (by omega), if_neg (by omega), e1]

theorem distribute_pathways_eq_nodes (pathways : List String) (rank size : Nat) :
    distribute_pathways pathways rank size = distribute_nodes pathways rank size := rfl

/-- Concatenating consecutive drop/take slices of a list along a monotone
boundary function reconstructs the list. -/
theorem flatten_map_slices_aux {α : Type} (xs : List α) (f : Nat → Nat) (k : Nat)
    (h0 : f 0 = 0) (hmono : ∀ i, i < k → f i ≤ f (i + 1)) :
    ∀ j, j ≤ k →
      ((List.range j).map (fun r => (xs.drop (f r)).take (f (r + 1) - f r))).flatten =
        xs.take (f j) := by
  intro j
  induction j with
  | zero => intro _; simp [h0]
  | succ j ih =>
    intro hj
    have hjk : j < k := Nat.lt_of_lt_of_le (Nat.lt_succ_self j) hj
    have hle : f j ≤ f (j + 1) := hmono j hjk
    have hsum : f (j + 1) = f j + (f (j + 1) - f j) := by omega
    have key : xs.take (f (j + 1)) =
        xs.take (f j) ++ (xs.drop (f j)).take (f (j + 1) - f j) := by
      conv_lhs => rw [hsum]
      rw [List.take_add]
    rw [List.range_succ, List.map_append, List.flatten_append, ih (Nat.le_of_lt hjk), key]
    simp

theorem flatten_map_slices {α : Type} (xs : List α) (f : Nat → Nat) (k : Nat)
    (h0 : f 0 = 0) (hmono : ∀ i, i < k → f i ≤ f (i + 1)) (hk : f k = xs.length) :
    ((List.range k).map (fun r => (xs.drop (f r)).take (f (r + 1) - f r))).flatten = xs := by
  rw [flatten_map_slices_aux xs f k h0 hmono k (le_refl k), hk, List.take_length]

theorem distribute_nodes_flatten (nodes : List String) (size : Nat) (hsize : 0 < size) :
    ((List.range size).map (fun r => distribute_nodes nodes r size)).flatten = nodes := by
  have hmap : (List.range size).map (fun r => distribute_nodes nodes r size) =
      (List.range size).map
        (fun r => (nodes.drop (blockStart nodes.length size r)).take
          (blockStart nodes.length size (r + 1) - blockStart nodes.length size r)) :=
    List.map_congr_left fun r _ => distribute_nodes_eq_slice nodes size r
  rw [hmap]
  exact flatten_map_slices nodes _ size (blockStart_zero _ _)
    (fun i _ => blockStart_le_succ _ _ i) (blockStart_size _ _ hsize)

theorem distribute_nodes_length (nodes : List String) (size r : Nat) (hsize : 0 < size)
    (hr : r < size) :
    (distribute_nodes nodes r size).length =
      if r < nodes.length % size then nodes.length / size + 1 else nodes.length / size := by
  rw [distribute_nodes_eq_slice, List.length_take, List.length_drop]
  have hr1 : r + 1 ≤ size := by omega
  have h2 : blockStart nodes.length size (r + 1) ≤ nodes.length := by
    have hm := blockStart_mono nodes.length size hr1
    rw [blockStart_size nodes.length size hsize] at hm
    exact hm
  have h3 : blockStart nodes.length size r ≤ blockStart nodes.length size (r + 1) :=
    blockStart_le_succ _ _ _
  rw [← blockStart_succ_sub nodes.length size r]
  exact min_eq_left (by omega)

theorem distribute_runs_length (total r size : Nat) (hr : r < size) :
    (distribute_runs total r size).length =
      if r = size - 1 then total - (size - 1) * (total / size) else total / size := by
  unfold distribute_runs
  by_cases hlast : r = size - 1
  · rw [if_pos hlast, if_neg (by omega), List.length_range', hlast]
  · rw [if_neg hlast, if_pos hlast, List.length_range']

theorem distribute_runs_flatten_aux (total m : Nat) :
    ∀ j, j ≤ m →
      ((List.range j).map (fun r => distribute_runs total r (m + 1))).flatten =
        List.range' 0 (j * (total / (m + 1))) := by
  intro j
  induction j with
  | zero => intro _; simp
  | succ j ih =>
    intro hj
    have hblock : distribute_runs total j (m + 1) =
        List.range' (j * (total / (m + 1))) (total / (m + 1)) := by
      unfold distribute_runs
      rw [if_pos (by omega)]
    rw [List.range_succ, List.map_append, List.flatten_append, ih (by omega)]
    simp only [List.map_cons, List.map_nil, List.flatten_cons, List.flatten_nil,
      List.append_nil]
    rw [hblock]
    have happ := List.range'_append_1 0 (j * (total / (m + 1))) (total / (m + 1))
    simp only [Nat.zero_add] at happ
    rw [happ, Nat.succ_mul, Nat.add_comm]

theorem distribute_runs_flatten (total size : Nat) (hsize : 0 < size) :
    ((List.range size).map (fun r => distribute_runs total r size)).flatten =
      List.range total := by
  obtain ⟨m, rfl⟩ : ∃ m, size = m + 1 := ⟨size - 1, by omega⟩
  have hlast : distribute_runs total m (m + 1) =
      List.range' (m * (total / (m + 1))) (total - m * (total / (m + 1))) := by
    unfold distribute_runs
    rw [if_neg (by omega)]
  have hle : m * (total / (m + 1)) ≤ total := by
    have h1 : m * (total / (m + 1)) ≤ (m + 1) * (total / (m + 1)) :=
      mul_le_mul_right' (by omega) _
    have h2 : (m + 1) * (total / (m + 1)) + total % (m + 1) = total :=
      Nat.div_add_mod total (m + 1)
    omega
  rw [List.range_succ, List.map_append, List.flatten_append,
    distribute_runs_flatten_aux total m m (le_refl _)]
  simp only [List.map_cons, List.map_nil, List.flatten_cons, List.flatten_nil, List.append_nil]
  rw [hlast]
  have happ := List.range'_append_1 0 (m * (total / (m + 1))) (total - m * (total / (m + 1)))
  simp only [Nat.zero_add] at happ
  rw [happ, List.range_eq_range']
  congr 1
  omega

/-- C1 (amended). For every workerCount ≥ 1: `distribute_nodes` and
`distribute_pathways` split the ordered items into contiguous blocks whose
concatenation over all ranks is exactly the original sequence, where the first
`N mod workerCount` ranks receive `N / workerCount + 1` items and the rest
receive `N / workerCount` (so any two slice sizes differ by at most 1); and
`distribute_runs` splits `range(N)` into contiguous blocks whose concatenation
over all ranks is exactly `range(N)`, where every rank except the last receives
`N / workerCount` items and the last rank receives all `N - (workerCount-1) *
(N / workerCount)` remaining items (which can exceed the others by more
than 1). -/
theorem distribute_partition_correct (size : Nat) (hsize : 0 < size) :
    (∀ nodes : List String,
      ((List.range size).map (fun r => distribute_nodes nodes r size)).flatten = nodes) ∧
    (∀ (nodes : List String) (r : Nat), r < size →
      (distribute_nodes nodes r size).length =
        if r < nodes.length % size then nodes.length / size + 1 else nodes.length / size) ∧
    (∀ (nodes : List String) (r1 r2 : Nat), r1 < size → r2 < size →
      (distribute_nodes nodes r1 size).length ≤ (distribute_nodes nodes r2 size).length + 1) ∧
    (∀ pathways : List String,
      ((List.range size).map (fun r => distribute_pathways pathways r size)).flatten =
        pathways) ∧
    (∀ (pathways : List String) (r : Nat), r < size →
      (distribute_pathways pathways r size).length =
        if r < pathways.length % size then pathways.length / size + 1
        else pathways.length / size) ∧
    (∀ total : Nat,
      ((List.range size).map (fun r => distribute_runs total r size)).flatten =
        List.range total) ∧
    (∀ (total r : Nat), r < size →
      (distribute_runs total r size).length =
        if r = size - 1 then total - (size - 1) * (total / size) else total / size) := by
  refine ⟨fun nodes => distribute_nodes_flatten nodes size hsize,
    fun nodes r hr => distribute_nodes_length nodes size r hsize hr,
    fun nodes r1 r2 h1 h2 => ?_,
    fun pathways => ?_,
    fun pathways r hr => ?_,
    fun total => distribute_runs_flatten total size hsize,
    fun total r hr => distribute_runs_length total r size hr⟩
  · rw [distribute_nodes_length nodes size r1 hsize h1,
      distribute_nodes_length nodes size r2 hsize h2]
    split <;> split <;> omega
  · have hmap : (List.range size).map (fun r => distribute_pathways pathways r size) =
        (List.range size).map (fun r => distribute_nodes pathways r size) :=
      List.map_congr_left fun r _ => distribute_pathways_eq_nodes pathways r size
    rw [hmap]
    exact distribute_nodes_flatten pathways size hsize
  · rw [distribute_pathways_eq_nodes]
    exact distribute_nodes_length pathways size r hsize hr

/-- Witness for C1 (amended) at workerCount 3. -/
theorem distribute_partition_correct_witness :
    0 < 3 ∧
      ((List.range 3).map (fun r => distribute_runs 11 r 3)).flatten = List.range 11 :=
  ⟨by decide, (distribute_partition_correct 3 (by decide)).2.2.2.2.2.1 11⟩

/-- C1 counterexample: with 11 runs over 3 workers, `distribute_runs` gives the
last worker 5 items and the first worker 3, so slice sizes differ by more than
1, and the first `11 mod 3 = 2` workers do not receive an extra item. -/
theorem distribute_runs_uneven :
    (distribute_runs 11 2 3).length = 5 ∧ (distribute_runs 11 0 3).length = 3 ∧
      11 % 3 = 2 ∧
      ¬ (distribute_runs 11 2 3).length ≤ (distribute_runs 11 0 3).length + 1 := by
  decide

/-! ## Weighted undirected graphs (networkx embedding) -/

/-- A networkx weighted undirected graph: a node list plus an undirected
weighted edge list over exact rationals (standing in for Python floats).
`G.copy()` has value semantics here: networkx copies the per-edge attribute
dictionaries, so writing a weight on the copy never affects the original. -/
structure Graph where
  nodes : List String
  edges : List (String × String × ℚ)
deriving DecidableEq

/-- Does the stored edge `e` join `u` and `v` (in either orientation)? -/
def edgeTouches (u v : String) (e : String × String × ℚ) : Bool :=
  (e.1 == u && e.2.1 == v) || (e.1 == v && e.2.1 == u)

/-- Edge-weight lookup `G[u][v]['weight']`. -/
def Graph.weight (G : Graph) (u v : String) : Option ℚ :=
  (G.edges.find? (edgeTouches u v)).map (fun e => e.2.2)

/-- Edge membership test `G.has_edge(u, v)`. -/
def Graph.hasEdge (G : Graph) (u v : String) : Bool :=
  G.edges.any (edgeTouches u v)

/-- The neighbor view `G[u]` of a present node, as a list. -/
def Graph.neighbors (G : Graph) (u : String) : List String :=
  G.nodes.filter (fun v => G.hasEdge u v)

/-- Write weight `w` on the stored edge joining `u` and `v`, if any. -/
def updWeight (u v : String) (w : ℚ) (e : String × String × ℚ) : String × String × ℚ :=
  if edgeTouches u v e then (e.1, e.2.1, w) else e

/-- The undirected weight assignment `modified[u][v]['weight'] = w` (networkx
stores one attribute dictionary per undirected edge, so this also realizes the
symmetric assignment `modified[v][u]['weight'] = w`). -/
def Graph.setWeight (G : Graph) (u v : String) (w : ℚ) : Graph :=
  { G with edges := G.edges.map (updWeight u v w) }

/-- The inner loop `for neighbor in G[node_to_isolate]: modified[node][nbr] =
r; modified[nbr][node] = r` of the knockdown operators: the neighbor list is
read from the original graph `G` while the weights are written on `modified`,
exactly as in the source. -/
def knockdownNodeLoop (G : Graph) (node : String) (r : ℚ) (modified : Graph) : Graph :=
  (G.neighbors node).foldl
    (fun m neighbor => (m.setWeight node neighbor r).setWeight neighbor node r) modified

/-! ## Perturbation operators (source lines 112-243) -/

/-- The nbunch expansion performed by `G.edges(nbunch)`: a present node stands
for itself; any other value is treated as an iterable of nodes — for a
string, its characters — and members absent from the graph are silently
skipped. -/
def nbunchNodes (G : Graph) (nbunch : String) : List String :=
  if nbunch ∈ G.nodes then [nbunch]
  else (nbunch.data.map (fun c => String.mk [c])).filter (fun s => decide (s ∈ G.nodes))

/-- Embedding of `knockout_node(G, node_to_isolate)` (source lines 112-126):
`edges_to_remove = list(G.edges(node_to_isolate))` followed by
`remove_edges_from` on the copy. networkx nbunch semantics never raise here:
an absent node contributes no edges (the string is iterated character by
character and absent members are skipped), so in that case the copy is
returned unmodified. The returned pair is (the caller's graph object after
the call, the modified graph); the Laplacian component of the Python return
tuple is recomputable from the modified graph and is not replicated. -/
def knockout_node (G : Graph) (node_to_isolate : String) : Graph × Graph :=
  let nbunch := nbunchNodes G node_to_isolate
  (G, { nodes := G.nodes,
        edges := G.edges.filter
          (fun e => !(nbunch.contains e.1 || nbunch.contains e.2.1)) })

/-- Embedding of `knockdown_node_both_layers(G, node_to_isolate_base,
reduced_weight)` (source lines 128-154). The proteomics node is processed
first, then the transcriptomics node, as in the source loop over
`[base.p, base.t]`; `G[node]` on an absent node raises KeyError, rendered as
`Except.error` (when only the second access fails the partially modified local
copy is discarded, as the Python exception discards it). Returns (caller's
graph after the call, modified graph). -/
def knockdown_node_both_layers (G : Graph) (node_to_isolate_base : String)
    (reduced_weight : ℚ) : Except String (Graph × Graph) :=
  let node_p := node_to_isolate_base ++ ".p"
  let node_t := node_to_isolate_base ++ ".t"
  if node_p ∈ G.nodes then
    if node_t ∈ G.nodes then
      Except.ok (G, knockdownNodeLoop G node_t reduced_weight
        (knockdownNodeLoop G node_p reduced_weight G))
    else Except.error ("KeyError")
  else Except.error ("KeyError")

/-- Modelled behavior of Python `str.split(sep)` on character lists:
left-to-right scan emitting the chunk accumulated so far at each separator
occurrence; the fuel argument is structural and exceeds the input length. -/
def pySplitAux (sep : List Char) : List Char → List Char → Nat → List (List Char)
  | _, acc, 0 => [acc.reverse]
  | [], acc, _ => [acc.reverse]
  | s@(c :: rest), acc, fuel + 1 =>
    if sep ≠ [] ∧ sep.isPrefixOf s then
      acc.reverse :: pySplitAux sep (s.drop sep.length) [] fuel
    else pySplitAux sep rest (c :: acc) fuel

/-- Modelled behavior of Python `str.split(sep)`. -/
def pySplit (s sep : String) : List String :=
  (pySplitAux sep.data s.data [] (s.data.length + 1)).map String.mk

/-- A row of the pathway enrichment table `pathway_df`: the `description`
column and the pipe-delimited `genes` column. -/
abbrev PathwayRow := String × String

/-- The base node names resolved by `knockdown_pathway_nodes`: the `genes`
fields of the rows whose description matches, split on the pipe character and
concatenated in row order. -/
def pathwayBaseNames (pathway_df : List PathwayRow) (pathway_description : String) :
    List String :=
  ((pathway_df.filter (fun row => row.1 == pathway_description)).map
    (fun row => pySplit row.2 ("|"))).flatten

/-- The per-base-name body of the `knockdown_pathway_nodes` loop: each layer
node is processed only `if node_to_isolate in G`. -/
def pathwayStep (G : Graph) (r : ℚ) (m : Graph) (base : String) : Graph :=
  let node_p := base ++ ".p"
  let node_t := base ++ ".t"
  let m1 := if node_p ∈ G.nodes then knockdownNodeLoop G node_p r m else m
  if node_t ∈ G.nodes then knockdownNodeLoop G node_t r m1 else m1

/-- Embedding of `knockdown_pathway_nodes(G, pathway_description,
reduced_weight)` (source lines 156-205), with the module-level `pathway_df`
passed explicitly. Returns (caller's graph after the call, modified graph);
the connected-component diagnostics of the Python return tuple are not
modelled. -/
def knockdown_pathway_nodes (pathway_df : List PathwayRow) (G : Graph)
    (pathway_description : String) (reduced_weight : ℚ) : Graph × Graph :=
  (G, (pathwayBaseNames pathway_df pathway_description).foldl
    (pathwayStep G reduced_weight) G)

/-- The per-node body of the `knockdown_random_nodes` loop: a node present in
the graph has its incident weights reduced on the modified copy; a missing
node only appends the printed diagnostic line to the log. -/
def randomStep (G : Graph) (r : ℚ) (acc : Graph × Graph × List String) (node : String) :
    Graph × Graph × List String :=
  if node ∈ G.nodes then (acc.1, knockdownNodeLoop G node r acc.2.1, acc.2.2)
  else (acc.1, acc.2.1, acc.2.2 ++ ["Node " ++ node ++ " not found in graph!!!!!!!!!!!"])

/-- Embedding of `knockdown_random_nodes(G, node_list, reduced_weight)`
(source lines 208-243). Returns (caller's graph after the call, modified
graph, printed log); the connected-component diagnostics of the Python return
tuple are not modelled. -/
def knockdown_random_nodes (G : Graph) (node_list : List String) (reduced_weight : ℚ) :
    Graph × Graph × List String :=
  node_list.foldl (randomStep G reduced_weight) (G, G, [])

/-! ## Facts about the knockdown weight loop -/

theorem edgeTouches_symm (u v : String) (e : String × String × ℚ) :
    edgeTouches v u e = edgeTouches u v e := by
  unfold edgeTouches
  exact Bool.or_comm _ _

theorem edgeTouches_mk (u v : String) (w : ℚ) (e : String × String × ℚ) :
    edgeTouches u v (e.1, e.2.1, w) = edgeTouches u v e := rfl

theorem setWeight_nodes (G : Graph) (u v : String) (w : ℚ) :
    (G.setWeight u v w).nodes = G.nodes := rfl

/-- The net effect of the per-neighbor weight-assignment fold on the edge
list: every stored edge joining `node` to one of the listed neighbors gets
weight `r`, all other stored edges are untouched. -/
theorem foldl_setWeight_edges (node : String) (r : ℚ) (nbrs : List String) :
    ∀ m : Graph,
      ((nbrs.foldl
        (fun m neighbor => (m.setWeight node neighbor r).setWeight neighbor node r) m).edges) =
        m.edges.map (fun e =>
          if nbrs.any (fun neighbor => edgeTouches node neighbor e) then (e.1, e.2.1, r)
          else e) := by
  induction nbrs with
  | nil => intro m; simp
  | cons nbr rest ih =>
    intro m
    rw [List.foldl_cons, ih]
    have hset : ((m.setWeight node nbr r).setWeight nbr node r).edges =
        (m.edges.map (updWeight node nbr r)).map (updWeight nbr node r) := rfl
    rw [hset, List.map_map, List.map_map]
    refine List.map_congr_left fun e _ => ?_
    simp only [Function.comp_apply]
    by_cases h1 : edgeTouches node nbr e
    · simp [updWeight, edgeTouches_mk, edgeTouches_symm, h1, List.any_cons]
    · simp [updWeight, edgeTouches_mk, edgeTouches_symm, h1, List.any_cons]

theorem knockdownNodeLoop_edges (G : Graph) (node : String) (r : ℚ) (m : Graph) :
    (knockdownNodeLoop G node r m).edges =
      m.edges.map (fun e =>
        if (G.neighbors node).any (fun neighbor => edgeTouches node neighbor e) then
          (e.1, e.2.1, r)
        else e) :=
  foldl_setWeight_edges node r (G.neighbors node) m

theorem foldl_setWeight_nodes (node : String) (r : ℚ) (nbrs : List String) :
    ∀ m : Graph,
      (nbrs.foldl
        (fun m neighbor => (m.setWeight node neighbor r).setWeight neighbor node r) m).nodes =
        m.nodes := by
  induction nbrs with
  | nil => intro m; rfl
  | cons nbr rest ih => intro m; rw [List.foldl_cons, ih]; rfl

theorem knockdownNodeLoop_nodes (G : Graph) (node : String) (r : ℚ) (m : Graph) :
    (knockdownNodeLoop G node r m).nodes = m.nodes :=
  foldl_setWeight_nodes node r (G.neighbors node) m

/-- For a stored edge of a well-formed graph, scanning the neighbor list of
`node` finds a neighbor joined to the edge exactly when the edge is incident
to `node`. -/
theorem neighbors_any_touches (G : Graph) (node : String) (e : String × String × ℚ)
    (he : e ∈ G.edges) (hwf : ∀ e' ∈ G.edges, e'.1 ∈ G.nodes ∧ e'.2.1 ∈ G.nodes) :
    ((G.neighbors node).any (fun neighbor => edgeTouches node neighbor e)) =
      (e.1 == node || e.2.1 == node) := by
  cases hcase : (e.1 == node || e.2.1 == node) with
  | false =>
    rw [Bool.or_eq_false_iff] at hcase
    rw [List.any_eq_false]
    intro nbr _
    unfold edgeTouches
    simp only [hcase.1, hcase.2, Bool.false_and, Bool.and_false, Bool.or_self,
      Bool.false_eq_true, not_false_eq_true]
  | true =>
    rw [List.any_eq_true]
    rw [Bool.or_eq_true_iff] at hcase
    rcases hcase with h1 | h2
    · refine ⟨e.2.1, ?_, ?_⟩
      · unfold Graph.neighbors
        rw [List.mem_filter]
        refine ⟨(hwf e he).2, ?_⟩
        unfold Graph.hasEdge
        rw [List.any_eq_true]
        refine ⟨e, he, ?_⟩
        unfold edgeTouches
        simp [h1]
      · unfold edgeTouches
        simp [h1]
    · refine ⟨e.1, ?_, ?_⟩
      · unfold Graph.neighbors
        rw [List.mem_filter]
        refine ⟨(hwf e he).1, ?_⟩
        unfold Graph.hasEdge
        rw [List.any_eq_true]
        refine ⟨e, he, ?_⟩
        unfold edgeTouches
        simp [h2]
      · unfold edgeTouches
        simp [h2]

theorem Graph.eq_of_parts {a b : Graph} (h1 : a.nodes = b.nodes) (h2 : a.edges = b.edges) :
    a = b := by
  cases a; cases b; cases h1; cases h2; rfl

/-- C3: on a graph containing both layer nodes `base.p` and `base.t`, the
two-layer node knockdown succeeds, returns the caller's graph unchanged, and
produces a modified graph with the same node list whose edge list is the
original one with weight exactly `r` written on every edge incident to
`base.p` or `base.t` and every other edge untouched. -/
theorem knockdown_node_both_layers_weights (G : Graph) (base : String) (r : ℚ)
    (hwf : ∀ e ∈ G.edges, e.1 ∈ G.nodes ∧ e.2.1 ∈ G.nodes)
    (hp : base ++ ".p" ∈ G.nodes) (ht : base ++ ".t" ∈ G.nodes) :
    knockdown_node_both_layers G base r =
      Except.ok (G,
        { nodes := G.nodes,
          edges := G.edges.map (fun e =>
            if (e.1 == base ++ ".p" || e.2.1 == base ++ ".p")
                || (e.1 == base ++ ".t" || e.2.1 == base ++ ".t") then (e.1, e.2.1, r)
            else e) }) := by
  unfold knockdown_node_both_layers
  rw [if_pos hp, if_pos ht]
  refine congrArg Except.ok (congrArg (Prod.mk G) (Graph.eq_of_parts ?_ ?_))
  · rw [knockdownNodeLoop_nodes, knockdownNodeLoop_nodes]
  · rw [knockdownNodeLoop_edges, knockdownNodeLoop_edges, List.map_map]
    refine List.map_congr_left fun e he => ?_
    simp only [Function.comp_apply]
    have hCp := neighbors_any_touches G (base ++ ".p") e he hwf
    have hCt := neighbors_any_touches G (base ++ ".t") e he hwf
    by_cases h1 : (e.1 == base ++ ".p" || e.2.1 == base ++ ".p") = true
    · simp [hCp, h1, edgeTouches_mk, hCt]
    · by_cases h2 : (e.1 == base ++ ".t" || e.2.1 == base ++ ".t") = true
      · simp [hCp, h1, edgeTouches_mk, hCt, h2]
      · simp [hCp, h1, edgeTouches_mk, hCt, h2]

/-- A concrete three-node example graph used by the witnesses. -/
def exampleGraph : Graph :=
  Graph.mk ["A.p", "A.t", "B.p"] [("A.p", "A.t", 1), ("A.p", "B.p", 1), ("B.p", "A.t", 1)]

/-- The example graph after a full two-layer knockdown of entity "A" with
reduction factor 0. -/
def exampleGraphKnocked : Graph :=
  Graph.mk ["A.p", "A.t", "B.p"] [("A.p", "A.t", 0), ("A.p", "B.p", 0), ("B.p", "A.t", 0)]

/-- Witness for C3 on a concrete three-node graph. -/
theorem knockdown_node_both_layers_weights_witness :
    ((∀ e ∈ exampleGraph.edges, e.1 ∈ exampleGraph.nodes ∧ e.2.1 ∈ exampleGraph.nodes) ∧
      ("A" ++ ".p") ∈ exampleGraph.nodes ∧ ("A" ++ ".t") ∈ exampleGraph.nodes) ∧
    knockdown_node_both_layers exampleGraph "A" 0 =
      Except.ok (exampleGraph, exampleGraphKnocked) := by
  refine ⟨⟨by decide, by decide, by decide⟩, ?_⟩
  have h := knockdown_node_both_layers_weights exampleGraph "A" 0
    (by decide) (by decide) (by decide)
  rw [h]
  rfl

/-! ## Missing-target behavior (C2) -/

/-- C2 counterexample: the two-layer node knockdown applied to an entity whose
layer nodes are absent from the graph raises a KeyError instead of logging the
missing target and proceeding. -/
theorem knockdown_node_missing_raises :
    knockdown_node_both_layers exampleGraph "X" 0 = Except.error ("KeyError") := rfl

/-- The per-base-name pathway body equals the weight loop folded over just
the layer nodes of that base that are present in the graph. -/
theorem pathwayStep_eq_filter (G : Graph) (r : ℚ) (m : Graph) (base : String) :
    pathwayStep G r m base =
      ([base ++ ".p", base ++ ".t"].filter (fun node => decide (node ∈ G.nodes))).foldl
        (fun m node => knockdownNodeLoop G node r m) m := by
  simp only [pathwayStep]
  by_cases hp : base ++ ".p" ∈ G.nodes <;> by_cases ht : base ++ ".t" ∈ G.nodes <;>
    simp [hp, ht]

/-- The pathway loop over a list of base names equals the weight loop folded
over the present layer nodes only, in loop order. -/
theorem pathwayStep_foldl_filter (G : Graph) (r : ℚ) :
    ∀ (bases : List String) (m : Graph),
      bases.foldl (pathwayStep G r) m =
        (((bases.map (fun base => [base ++ ".p", base ++ ".t"])).flatten.filter
          (fun node => decide (node ∈ G.nodes))).foldl
            (fun m node => knockdownNodeLoop G node r m) m) := by
  intro bases
  induction bases with
  | nil => intro m; rfl
  | cons b rest ih =>
    intro m
    rw [List.foldl_cons, ih, pathwayStep_eq_filter, List.map_cons, List.flatten_cons,
      List.filter_append, List.foldl_append]

/-- The random-knockdown loop keeps the caller's graph, knocks down exactly
the listed nodes that are present, and logs exactly the listed nodes that are
absent. -/
theorem randomStep_foldl_filter (G : Graph) (r : ℚ) :
    ∀ (l : List String) (m : Graph) (log : List String),
      l.foldl (randomStep G r) (G, m, log) =
        (G, ((l.filter (fun node => decide (node ∈ G.nodes))).foldl
            (fun m node => knockdownNodeLoop G node r m) m),
          log ++ (l.filter (fun node => !decide (node ∈ G.nodes))).map
            (fun node => "Node " ++ node ++ " not found in graph!!!!!!!!!!!")) := by
  intro l
  induction l with
  | nil => intro m log; simp
  | cons a rest ih =>
    intro m log
    rw [List.foldl_cons]
    by_cases h : a ∈ G.nodes
    · have hstep : randomStep G r (G, m, log) a = (G, knockdownNodeLoop G a r m, log) := by
        simp [randomStep, h]
      rw [hstep, ih (knockdownNodeLoop G a r m) log]
      simp [h]
    · have hstep : randomStep G r (G, m, log) a =
          (G, m, log ++ ["Node " ++ a ++ " not found in graph!!!!!!!!!!!"]) := by
        simp [randomStep, h]
      rw [hstep, ih m (log ++ ["Node " ++ a ++ " not found in graph!!!!!!!!!!!"])]
      simp [h]

/-- C2 (amended): a target absent from the graph is a soft failure for the
pathway and random knockdown operators: the call completes, the absent target
is skipped with no effect on the graph while the remaining targets are still
processed — the modified graph equals the weight loop folded over the present
targets only — and the random knockdown logs one diagnostic line per missing
node; in particular inserting an absent node into the random target list
leaves the modified graph unchanged. The two-layer node knockdown instead
raises a KeyError on an absent target. -/
theorem knockdown_missing_targets_soft :
    (∀ (pathway_df : List PathwayRow) (G : Graph) (desc : String) (r : ℚ),
      knockdown_pathway_nodes pathway_df G desc r =
        (G, ((((pathwayBaseNames pathway_df desc).map
            (fun base => [base ++ ".p", base ++ ".t"])).flatten.filter
              (fun node => decide (node ∈ G.nodes))).foldl
                (fun m node => knockdownNodeLoop G node r m) G))) ∧
    (∀ (G : Graph) (node_list : List String) (r : ℚ),
      knockdown_random_nodes G node_list r =
        (G, ((node_list.filter (fun node => decide (node ∈ G.nodes))).foldl
            (fun m node => knockdownNodeLoop G node r m) G),
          (node_list.filter (fun node => !decide (node ∈ G.nodes))).map
            (fun node => "Node " ++ node ++ " not found in graph!!!!!!!!!!!"))) ∧
    (∀ (G : Graph) (pre post : List String) (node : String) (r : ℚ),
      node ∉ G.nodes →
      (knockdown_random_nodes G (pre ++ node :: post) r).2.1 =
        (knockdown_random_nodes G (pre ++ post) r).2.1) := by
  have hrand : ∀ (G : Graph) (node_list : List String) (r : ℚ),
      knockdown_random_nodes G node_list r =
        (G, ((node_list.filter (fun node => decide (node ∈ G.nodes))).foldl
            (fun m node => knockdownNodeLoop G node r m) G),
          (node_list.filter (fun node => !decide (node ∈ G.nodes))).map
            (fun node => "Node " ++ node ++ " not found in graph!!!!!!!!!!!")) := by
    intro G node_list r
    unfold knockdown_random_nodes
    rw [randomStep_foldl_filter G r node_list G []]
    simp
  refine ⟨?_, hrand, ?_⟩
  · intro pathway_df G desc r
    unfold knockdown_pathway_nodes
    rw [pathwayStep_foldl_filter G r (pathwayBaseNames pathway_df desc) G]
  · intro G pre post node r h
    rw [hrand, hrand]
    have hfil : (pre ++ node :: post).filter (fun node => decide (node ∈ G.nodes)) =
        (pre ++ post).filter (fun node => decide (node ∈ G.nodes)) := by
      simp [List.filter_append, List.filter_cons, h]
    rw [hfil]

/-- Witness for C2 (amended): inserting a node absent from the example graph
into the middle of a random-knockdown target list leaves the modified graph
unchanged while the present targets are still processed. -/
theorem knockdown_missing_targets_soft_witness :
    ("Q.p" ∉ exampleGraph.nodes) ∧
    (knockdown_random_nodes exampleGraph (["A.p"] ++ "Q.p" :: ["B.p"]) 0).2.1 =
      (knockdown_random_nodes exampleGraph (["A.p"] ++ ["B.p"]) 0).2.1 :=
  ⟨by decide,
    knockdown_missing_targets_soft.2.2 exampleGraph ["A.p"] ["B.p"] "Q.p" 0 (by decide)⟩

/-! ## Frame property of the operators (C7) -/

theorem randomStep_foldl_fst (G : Graph) (r : ℚ) :
    ∀ (l : List String) (acc : Graph × Graph × List String),
      (l.foldl (randomStep G r) acc).1 = acc.1 := by
  intro l
  induction l with
  | nil => intro acc; rfl
  | cons a rest ih =>
    intro acc
    rw [List.foldl_cons, ih]
    unfold randomStep
    split
    · rfl
    · rfl

/-- C7: every perturbation operator leaves the caller's graph unchanged — the
first component of each returned tuple, the state of the input graph object
after the call, is the input graph itself, all writes going to the copy: for
`knockout_node` (which never raises, by nbunch semantics), the pathway
knockdown and the random knockdown this holds unconditionally, and for the
two-layer knockdown on every non-raising call. The modified graphs of two
independent calls share no mutable state because the copy has value semantics
in this embedding (networkx `G.copy()` copies the per-edge attribute
dictionaries). -/
theorem perturbation_preserves_input :
    (∀ (G : Graph) (node : String), (knockout_node G node).1 = G) ∧
    (∀ (G : Graph) (base : String) (r : ℚ) (pr : Graph × Graph),
      knockdown_node_both_layers G base r = Except.ok pr → pr.1 = G) ∧
    (∀ (pathway_df : List PathwayRow) (G : Graph) (desc : String) (r : ℚ),
      (knockdown_pathway_nodes pathway_df G desc r).1 = G) ∧
    (∀ (G : Graph) (node_list : List String) (r : ℚ),
      (knockdown_random_nodes G node_list r).1 = G) := by
  refine ⟨fun _ _ => rfl, ?_, fun _ _ _ _ => rfl,
    fun G node_list r => randomStep_foldl_fst G r node_list _⟩
  intro G base r pr h
  simp only [knockdown_node_both_layers] at h
  split at h
  · split at h
    · injection h with h2
      rw [← h2]
    · exact Except.noConfusion h
  · exact Except.noConfusion h

/-- Witness for C7 at a concrete non-raising call of the fallible two-layer
knockdown operator. -/
theorem perturbation_preserves_input_witness :
    knockdown_node_both_layers exampleGraph "A" 0 =
      Except.ok (exampleGraph, exampleGraphKnocked) ∧
    (exampleGraph, exampleGraphKnocked).1 = exampleGraph :=
  ⟨rfl, perturbation_preserves_input.2.1 exampleGraph "A" 0 _ rfl⟩

/-! ## Result accumulation (C9, source lines 636-646) -/

/-- The diagnostic context printed by the KeyError handler around
`results[target][reduction] = entry`: the attempted target key, the attempted
reduction factor, and the keys currently present in the result mapping. -/
structure KeyErrorDiag where
  attempted_target : String
  attempted_reduction : ℚ
  current_keys : List String
deriving DecidableEq

/-- Embedding of the guarded accumulation `results[target][reduction] = entry`
(source lines 636-646): when `target` is already a key the inner mapping is
extended; when it is missing Python raises KeyError, the handler prints the
attempted key, the reduction factor and the current keys and then re-raises,
rendered as an `Except.error` carrying exactly that diagnostic context. -/
def accumulate_result {α : Type} (results : List (String × List (ℚ × α)))
    (target : String) (reduction : ℚ) (entry : α) :
    Except KeyErrorDiag (List (String × List (ℚ × α))) :=
  if target ∈ results.map (fun kv => kv.1) then
    Except.ok (results.map
      (fun kv => if kv.1 == target then (kv.1, kv.2 ++ [(reduction, entry)]) else kv))
  else
    Except.error (KeyErrorDiag.mk target reduction (results.map (fun kv => kv.1)))

/-- C9: accumulating into an unpopulated target slot is a fatal error carrying
the attempted target key, the attempted reduction factor and the currently
accumulated keys; the error propagates (the run aborts) instead of the result
mapping being silently extended. -/
theorem accumulate_result_missing_key {α : Type} (results : List (String × List (ℚ × α)))
    (target : String) (reduction : ℚ) (entry : α)
    (h : target ∉ results.map (fun kv => kv.1)) :
    accumulate_result results target reduction entry =
      Except.error (KeyErrorDiag.mk target reduction (results.map (fun kv => kv.1))) := by
  unfold accumulate_result
  rw [if_neg h]

/-- Witness for C9 at a concrete result mapping missing the attempted key. -/
theorem accumulate_result_missing_key_witness :
    (("random_11_run_1" : String) ∉
      (([("other", [])] : List (String × List (ℚ × ℚ)))).map (fun kv => kv.1)) ∧
    accumulate_result ([("other", ([] : List (ℚ × ℚ)))]) ("random_11_run_1") 0 1 =
      Except.error (KeyErrorDiag.mk ("random_11_run_1") 0 ["other"]) := by
  refine ⟨by decide, ?_⟩
  rw [accumulate_result_missing_key ([("other", ([] : List (ℚ × ℚ)))]) ("random_11_run_1") 0 1
    (by decide)]
  rfl

/-! ## Random node-combination generator (C8 and C10, source lines 546-563) -/

/-- Modelled behavior of Python `str.replace(pat, rep)` on character lists:
left-to-right scan replacing every non-overlapping occurrence of `pat`; the
fuel argument is structural and exceeds the input length. -/
def pyReplaceAux (pat rep : List Char) : List Char → Nat → List Char
  | _, 0 => []
  | [], _ => []
  | s@(c :: rest), fuel + 1 =>
    if pat ≠ [] ∧ pat.isPrefixOf s then rep ++ pyReplaceAux pat rep (s.drop pat.length) fuel
    else c :: pyReplaceAux pat rep rest fuel

/-- Modelled behavior of Python `str.replace(pat, rep)`: every occurrence of
`pat` is replaced, not only a trailing one. -/
def pyReplace (s pat rep : String) : String :=
  String.mk (pyReplaceAux pat.data rep.data s.data (s.data.length + 1))

/-- Modelled behavior of Python `str.endswith(t)`. -/
def pyEndsWith (s t : String) : Bool :=
  t.data.isSuffixOf s.data

/-- Deterministic generator step standing in for the Mersenne Twister behind
`random.Random(42)`: the claims depend only on the stream being a
deterministic function of the seed, not on its distribution. -/
def lcgNext (s : Nat) : Nat := (s * 1103515245 + 12345) % 2147483648

/-- Modelled behavior of `random.Random.sample(population, k)`: `k` successive
removals at generator-chosen indices — so the draws are distinct elements of
the population — deterministic in the generator state, which is threaded
through and returned. -/
def pySample : Nat → List String → Nat → List String × Nat
  | 0, _, s => ([], s)
  | _ + 1, [], s => ([], s)
  | k + 1, c :: pop', s =>
    let pop := c :: pop'
    let s' := lcgNext s
    let idx := s' % pop.length
    let chosen := pop.getD idx c
    let next := pySample k (pop.eraseIdx idx) s'
    (chosen :: next.1, next.2)

theorem pySample_length : ∀ (k : Nat) (pop : List String) (s : Nat), k ≤ pop.length →
    (pySample k pop s).1.length = k := by
  intro k
  induction k with
  | zero => intro pop s _; rfl
  | succ k ih =>
    intro pop s h
    cases pop with
    | nil => exact absurd h (by simp)
    | cons c pop' =>
      simp only [pySample]
      have hlen : lcgNext s % (c :: pop').length < (c :: pop').length :=
        Nat.mod_lt _ (by simp)
      have herase : ((c :: pop').eraseIdx (lcgNext s % (c :: pop').length)).length =
          (c :: pop').length - 1 := by
        rw [List.length_eraseIdx, if_pos hlen]
      have hb : k ≤ ((c :: pop').eraseIdx (lcgNext s % (c :: pop').length)).length := by
        rw [herase]
        simp only [List.length_cons] at h ⊢
        omega
      rw [List.length_cons, ih _ _ hb]

theorem pySample_mem : ∀ (k : Nat) (pop : List String) (s : Nat) (x : String),
    x ∈ (pySample k pop s).1 → x ∈ pop := by
  intro k
  induction k with
  | zero => intro pop s x hx; exact absurd hx (by simp [pySample])
  | succ k ih =>
    intro pop s x hx
    cases pop with
    | nil => exact absurd hx (by simp [pySample])
    | cons c pop' =>
      simp only [pySample] at hx
      have hlen : lcgNext s % (c :: pop').length < (c :: pop').length :=
        Nat.mod_lt _ (by simp)
      rcases List.mem_cons.1 hx with h | h
      · rw [h, List.getD_eq_getElem _ _ hlen]
        exact List.getElem_mem hlen
      · exact (List.eraseIdx_sublist (c :: pop') (lcgNext s % (c :: pop').length)).mem (ih _ _ _ h)

theorem pySample_nodup : ∀ (k : Nat) (pop : List String) (s : Nat), pop.Nodup →
    (pySample k pop s).1.Nodup := by
  intro k
  induction k with
  | zero => intro pop s _; exact List.nodup_nil
  | succ k ih =>
    intro pop s hpop
    cases pop with
    | nil => exact List.nodup_nil
    | cons c pop' =>
      simp only [pySample]
      have hlen : lcgNext s % (c :: pop').length < (c :: pop').length :=
        Nat.mod_lt _ (by simp)
      rw [List.nodup_cons]
      refine ⟨fun hmem => ?_, ih _ _ ((List.eraseIdx_sublist _ _).nodup hpop)⟩
      have hin : (c :: pop').getD (lcgNext s % (c :: pop').length) c ∈
          (c :: pop').eraseIdx (lcgNext s % (c :: pop').length) := pySample_mem _ _ _ _ hmem
      rw [List.getD_eq_getElem _ _ hlen] at hin
      exact absurd hin (by
        rw [← List.Nodup.erase_getElem hpop _ hlen]
        exact (hpop.mem_erase_iff).not.2 (by simp))

/-- The body of the `while len(unique_combinations) < total_combinations`
loop, with explicit structural fuel (the Python loop can iterate unboundedly
when duplicate draws occur; every property proved below is fuel-independent).
The CONTENTS of the Python set of tuples are modelled as a duplicate-free
list carrying the insertion history; the iteration order that `list(set)`
later imposes is applied by `generate_node_combinations` through an explicit
order parameter, since in CPython that order depends on the per-process
string hash seed. -/
def genLoop (proteomics_nodes : List String) (num_nodes total_combinations : Nat) :
    Nat → List (List String) → Nat → List (List String)
  | 0, pool, _ => pool
  | fuel + 1, pool, s =>
    if pool.length < total_combinations then
      let draw := pySample num_nodes proteomics_nodes s
      let random_proteomics_nodes := draw.1
      let random_transcriptomics_nodes :=
        random_proteomics_nodes.map (fun node => pyReplace node (".p") (".t"))
      let random_nodes_tuple := random_proteomics_nodes ++ random_transcriptomics_nodes
      let pool' := if random_nodes_tuple ∈ pool then pool else pool ++ [random_nodes_tuple]
      genLoop proteomics_nodes num_nodes total_combinations fuel pool' draw.2
    else pool

/-- Embedding of `generate_node_combinations(G, num_nodes, total_combinations)`
(source lines 546-563). The draws come from a local `random.Random(42)`, so
the SET of combinations is a function of the graph and the sizes alone; the
final `return list(unique_combinations)` converts the set to a list in
CPython's per-process, string-hash-seed-dependent iteration order, which is
passed in as the explicit `set_iteration_order` parameter (constrained in the
theorems below to permute its input, as any iteration order does). -/
def generate_node_combinations (G : Graph) (num_nodes total_combinations : Nat)
    (set_iteration_order : List (List String) → List (List String)) : List (List String) :=
  let local_random := 42
  let proteomics_nodes := G.nodes.filter (fun node => pyEndsWith node (".p"))
  set_iteration_order
    (genLoop proteomics_nodes num_nodes total_combinations (total_combinations + 1) []
      local_random)

/-- C8 counterexample: the pool order depends on the set iteration order. The
identity and reversal orders are both iteration orders some process hash seed
can produce; under them the generator returns pools with the same
combinations but in different order, so the combination selected by run index
0 differs. The program never fixes PYTHONHASHSEED, so distinct workers may
run under distinct orders. -/
theorem generate_node_combinations_order_dependent :
    (∀ pool : List (List String), List.Perm pool.reverse pool) ∧
    List.Perm (generate_node_combinations (Graph.mk ["A.p", "B.p"] []) 1 2 (fun pool => pool))
      (generate_node_combinations (Graph.mk ["A.p", "B.p"] []) 1 2
        (fun pool => pool.reverse)) ∧
    generate_node_combinations (Graph.mk ["A.p", "B.p"] []) 1 2 (fun pool => pool) ≠
      generate_node_combinations (Graph.mk ["A.p", "B.p"] []) 1 2 (fun pool => pool.reverse) ∧
    (generate_node_combinations (Graph.mk ["A.p", "B.p"] []) 1 2
        (fun pool => pool)).head? ≠
      (generate_node_combinations (Graph.mk ["A.p", "B.p"] []) 1 2
        (fun pool => pool.reverse)).head? :=
  ⟨fun pool => List.reverse_perm pool, by decide, by decide, by decide⟩

/-- C8 (amended): two calls under the same set iteration order — in
particular, two calls in the same worker process — return identical pools
(the same combinations in the same order); and under any two iteration
orders, the pools contain exactly the same combinations (they are
permutations of each other), the draws being fixed by the local Random(42)
seed. Equality of the selected combination at a given run index across
workers additionally needs the per-process orders to coincide, which the
program does not enforce. -/
theorem generate_node_combinations_reproducibility :
    (∀ (G : Graph) (num_nodes total_combinations : Nat)
        (set_iteration_order : List (List String) → List (List String)),
      generate_node_combinations G num_nodes total_combinations set_iteration_order =
        generate_node_combinations G num_nodes total_combinations set_iteration_order) ∧
    (∀ (G : Graph) (num_nodes total_combinations : Nat)
        (o1 o2 : List (List String) → List (List String)),
      (∀ pool, List.Perm (o1 pool) pool) → (∀ pool, List.Perm (o2 pool) pool) →
      List.Perm (generate_node_combinations G num_nodes total_combinations o1)
        (generate_node_combinations G num_nodes total_combinations o2)) := by
  refine ⟨fun _ _ _ _ => rfl, ?_⟩
  intro G num_nodes total_combinations o1 o2 h1 h2
  exact List.Perm.trans
    (h1 (genLoop (G.nodes.filter (fun node => pyEndsWith node (".p"))) num_nodes
      total_combinations (total_combinations + 1) [] 42))
    (List.Perm.symm (h2 (genLoop (G.nodes.filter (fun node => pyEndsWith node (".p")))
      num_nodes total_combinations (total_combinations + 1) [] 42)))

/-- Witness for C8 (amended) at the identity and reversal orders. -/
theorem generate_node_combinations_reproducibility_witness :
    (∀ pool : List (List String), List.Perm ((fun pool => pool) pool) pool) ∧
    List.Perm (generate_node_combinations exampleGraph 1 1 (fun pool => pool))
      (generate_node_combinations exampleGraph 1 1 (fun pool => pool.reverse)) :=
  ⟨fun pool => List.Perm.refl pool,
    generate_node_combinations_reproducibility.2 exampleGraph 1 1 (fun pool => pool)
      (fun pool => pool.reverse) (fun pool => List.Perm.refl pool)
      (fun pool => List.reverse_perm pool)⟩

/-- Every pool state reachable by the generator loop keeps an invariant that
holds of all freshly drawn combinations, and stays duplicate-free. -/
theorem genLoop_inv (proteomics_nodes : List String) (num_nodes total_combinations : Nat)
    (P : List String → Prop)
    (hdraw : ∀ s : Nat, P ((pySample num_nodes proteomics_nodes s).1 ++
      (pySample num_nodes proteomics_nodes s).1.map (fun node => pyReplace node (".p") (".t")))) :
    ∀ (fuel : Nat) (pool : List (List String)) (s : Nat),
      pool.Nodup → (∀ c ∈ pool, P c) →
      (genLoop proteomics_nodes num_nodes total_combinations fuel pool s).Nodup ∧
        ∀ c ∈ genLoop proteomics_nodes num_nodes total_combinations fuel pool s, P c := by
  intro fuel
  induction fuel with
  | zero => intro pool s h1 h2; exact ⟨h1, h2⟩
  | succ fuel ih =>
    intro pool s h1 h2
    simp only [genLoop]
    split
    · split
      · exact ih pool _ h1 h2
      · rename_i hnotmem
        refine ih _ _ ?_ ?_
        · rw [List.nodup_append]
          exact ⟨h1, List.nodup_singleton _, by simpa [List.disjoint_singleton] using hnotmem⟩
        · intro c hc
          rcases List.mem_append.1 hc with hm | hm
          · exact h2 c hm
          · rw [List.mem_singleton] at hm
            subst hm
            exact hdraw s
    · exact ⟨h1, h2⟩

/-- C10 (amended): whenever the requested combination size does not exceed the
number of proteomics-layer nodes and the node list is duplicate-free, every
combination in the generated pool is a list of `num_nodes` distinct
proteomics-layer nodes of the graph (names ending in ".p") followed by the
strings obtained from them by replacing every occurrence of ".p" with ".t"
(Python str.replace semantics, not only the suffix), so each combination has
exactly 2 * num_nodes entries; and the pool is duplicate-free. -/
theorem generate_node_combinations_shape (G : Graph)
    (num_nodes total_combinations : Nat)
    (set_iteration_order : List (List String) → List (List String))
    (horder : ∀ pool, List.Perm (set_iteration_order pool) pool)
    (hnodup : G.nodes.Nodup)
    (hk : num_nodes ≤ (G.nodes.filter (fun node => pyEndsWith node (".p"))).length) :
    (generate_node_combinations G num_nodes total_combinations set_iteration_order).Nodup ∧
    ∀ combo ∈ generate_node_combinations G num_nodes total_combinations set_iteration_order,
      ∃ picks : List String,
        combo = picks ++ picks.map (fun node => pyReplace node (".p") (".t")) ∧
        combo.length = 2 * num_nodes ∧ picks.Nodup ∧ picks.length = num_nodes ∧
        ∀ x ∈ picks, x ∈ G.nodes ∧ pyEndsWith x (".p") = true := by
  have hfil : (G.nodes.filter (fun node => pyEndsWith node (".p"))).Nodup :=
    hnodup.filter _
  have h := genLoop_inv (G.nodes.filter (fun node => pyEndsWith node (".p")))
    num_nodes total_combinations
    (fun combo => ∃ picks : List String,
      combo = picks ++ picks.map (fun node => pyReplace node (".p") (".t")) ∧
      combo.length = 2 * num_nodes ∧ picks.Nodup ∧ picks.length = num_nodes ∧
      ∀ x ∈ picks, x ∈ G.nodes ∧ pyEndsWith x (".p") = true)
    (fun s => ?_) (total_combinations + 1) [] 42 List.nodup_nil (by intro c hc; cases hc)
  · constructor
    · exact (horder _).symm.nodup h.1
    · intro combo hc
      exact h.2 combo ((horder _).mem_iff.mp hc)
  · refine ⟨(pySample num_nodes (G.nodes.filter (fun node => pyEndsWith node (".p"))) s).1,
      rfl, ?_, pySample_nodup _ _ _ hfil, pySample_length _ _ _ hk, ?_⟩
    · rw [List.length_append, List.length_map, pySample_length _ _ _ hk]
      omega
    · intro x hx
      have hmem := pySample_mem _ _ _ _ hx
      rw [List.mem_filter] at hmem
      exact ⟨hmem.1, hmem.2⟩

/-- Witness for C10 (amended) on the example graph, at the identity iteration
order. -/
theorem generate_node_combinations_shape_witness :
    ((∀ pool : List (List String), List.Perm ((fun pool => pool) pool) pool) ∧
      exampleGraph.nodes.Nodup ∧
      1 ≤ (exampleGraph.nodes.filter (fun node => pyEndsWith node (".p"))).length) ∧
    (generate_node_combinations exampleGraph 1 1 (fun pool => pool)).Nodup :=
  ⟨⟨fun pool => List.Perm.refl pool, by decide, by decide⟩,
    (generate_node_combinations_shape exampleGraph 1 1 (fun pool => pool)
      (fun pool => List.Perm.refl pool) (by decide) (by decide)).1⟩

/-- C10 counterexample: for a graph whose proteomics node is named "A.p.p",
the generated partner string is "A.t.t" — every occurrence of ".p" is
replaced, exactly as Python str.replace does — and not the suffix replacement
"A.p.t" described by the claim. -/
theorem generate_node_combinations_replace_all :
    generate_node_combinations (Graph.mk ["A.p.p"] []) 1 1 (fun pool => pool) =
        [["A.p.p", "A.t.t"]] ∧
      pyReplace ("A.p.p") (".p") (".t") = "A.t.t" ∧ ("A.t.t" : String) ≠ "A.p.t" := by
  refine ⟨rfl, rfl, by decide⟩

/-! ## Kernel distance metric (C4, source lines 600-608) -/

/-- Frobenius norm of a real square matrix (`np.linalg.norm` with `ord='fro'`). -/
noncomputable def frobeniusNorm {n : Nat} (A : Matrix (Fin n) (Fin n) ℝ) : ℝ :=
  Real.sqrt (∑ i, ∑ j, A i j ^ 2)

/-- Embedding of `np.max` on a sequence (junk value 0 on the empty one, where
numpy raises). -/
noncomputable def npMax : List ℝ → ℝ
  | [] => 0
  | a :: rest => rest.foldl max a

/-- Embedding of the per-time GDD sequence (source lines 600-601):
`np.linalg.norm(stableKernels - aggroKernels, axis=(1,2), ord='fro') ** 2`
over matched time indices. -/
noncomputable def gdd_values {n : Nat} (kernelsA kernelsB : List (Matrix (Fin n) (Fin n) ℝ)) :
    List ℝ :=
  (kernelsA.zip kernelsB).map (fun p => frobeniusNorm (p.1 - p.2) ^ 2)

/-- Embedding of the headline statistic `np.max(np.sqrt(gdd_values))` (source
lines 606-607). -/
noncomputable def max_gdd (gdds : List ℝ) : ℝ :=
  npMax (gdds.map Real.sqrt)

/-- C4: each per-time distance equals the squared Frobenius norm — the sum of
squared entrywise differences — of the kernel difference at that time index,
and the reported max-GDD summary equals the maximum over the time grid of the
unsquared Frobenius norm. -/
theorem gdd_values_spec {n : Nat} (kernelsA kernelsB : List (Matrix (Fin n) (Fin n) ℝ))
    (hlen : kernelsA.length = kernelsB.length) :
    (∀ (i : Nat) (h1 : i < kernelsA.length) (h2 : i < kernelsB.length)
        (h3 : i < (gdd_values kernelsA kernelsB).length),
      (gdd_values kernelsA kernelsB).get ⟨i, h3⟩ =
        ∑ a, ∑ b, (kernelsA.get ⟨i, h1⟩ - kernelsB.get ⟨i, h2⟩) a b ^ 2) ∧
    max_gdd (gdd_values kernelsA kernelsB) =
      npMax ((kernelsA.zip kernelsB).map (fun p => frobeniusNorm (p.1 - p.2))) := by
  constructor
  · intro i h1 h2 h3
    have hz : i < (kernelsA.zip kernelsB).length := by
      simpa [gdd_values] using h3
    simp only [gdd_values, List.get_eq_getElem, List.getElem_map, List.getElem_zip]
    exact Real.sq_sqrt (Finset.sum_nonneg fun a _ => Finset.sum_nonneg fun b _ => sq_nonneg _)
  · unfold max_gdd gdd_values
    rw [List.map_map]
    refine congrArg npMax (List.map_congr_left fun p _ => ?_)
    exact Real.sqrt_sq (Real.sqrt_nonneg _)

/-- Witness for C4 on a one-element kernel sequence. -/
theorem gdd_values_spec_witness :
    ([(0 : Matrix (Fin 1) (Fin 1) ℝ)].length = [(0 : Matrix (Fin 1) (Fin 1) ℝ)].length) ∧
    max_gdd (gdd_values [(0 : Matrix (Fin 1) (Fin 1) ℝ)] [(0 : Matrix (Fin 1) (Fin 1) ℝ)]) =
      npMax (([(0 : Matrix (Fin 1) (Fin 1) ℝ)].zip [(0 : Matrix (Fin 1) (Fin 1) ℝ)]).map
        (fun p => frobeniusNorm (p.1 - p.2))) :=
  ⟨rfl, (gdd_values_spec [(0 : Matrix (Fin 1) (Fin 1) ℝ)] [(0 : Matrix (Fin 1) (Fin 1) ℝ)]
    rfl).2⟩

/-! ## Diffusion kernels (C5 and C6, source lines 92-110) -/

/-- Embedding of `laplacian_exponential_kernel_eigendecomp(L, t)` (source
lines 92-104) downstream of the eigensolver call: given the `(eigenvalues,
eigenvectors)` pair returned by `np.linalg.eigh(L)`, the kernel is
`eigenvectors @ np.diag(np.exp(-t * eigenvalues)) @ eigenvectors.T`. The
numpy symmetric eigensolver itself is modelled by its contract, stated as
hypotheses of the theorems below: the eigenvector matrix is orthogonal and
conjugating the diagonal eigenvalue matrix by it reproduces `L`. -/
noncomputable def laplacian_exponential_kernel_eigendecomp {n : Nat}
    (eigenvectors : Matrix (Fin n) (Fin n) ℝ) (eigenvalues : Fin n → ℝ) (t : ℝ) :
    Matrix (Fin n) (Fin n) ℝ :=
  eigenvectors * Matrix.diagonal (fun i => Real.exp (-t * eigenvalues i)) *
    eigenvectors.transpose

/-- Embedding of `laplacian_exponential_diffusion_kernel(L, t) =
scipy.linalg.expm(-t * L)` (source lines 106-110): the matrix exponential. -/
noncomputable def laplacian_exponential_diffusion_kernel {n : Nat}
    (L : Matrix (Fin n) (Fin n) ℝ) (t : ℝ) : Matrix (Fin n) (Fin n) ℝ :=
  NormedSpace.exp ℝ ((-t) • L)

theorem exp_smul_diagonal {n : Nat} (lam : Fin n → ℝ) (t : ℝ) :
    NormedSpace.exp ℝ ((-t) • Matrix.diagonal lam) =
      Matrix.diagonal (fun i => Real.exp (-t * lam i)) := by
  have hd : (-t) • Matrix.diagonal lam = Matrix.diagonal ((-t) • lam) := by
    rw [Matrix.diagonal_smul]
  rw [hd, Matrix.exp_diagonal]
  refine congrArg Matrix.diagonal (funext fun i => ?_)
  rw [Pi.coe_exp, Pi.smul_apply, smul_eq_mul, Real.exp_eq_exp_ℝ]

/-- C5: under the eigensolver contract — an orthogonal eigenvector matrix `Q`
and eigenvalues `lam` with `L = Q @ diag(lam) @ Q.T` — the eigendecomposition
kernel equals the direct matrix exponential exactly over the reals, hence
agrees with it within 1e-6 absolute tolerance elementwise. -/
theorem kernel_eigendecomp_agrees_expm {n : Nat} (L Q : Matrix (Fin n) (Fin n) ℝ)
    (lam : Fin n → ℝ) (t : ℝ) (horth : Q * Q.transpose = 1)
    (hdecomp : L = Q * Matrix.diagonal lam * Q.transpose) :
    laplacian_exponential_kernel_eigendecomp Q lam t =
        laplacian_exponential_diffusion_kernel L t ∧
      ∀ i j, |laplacian_exponential_kernel_eigendecomp Q lam t i j -
          laplacian_exponential_diffusion_kernel L t i j| ≤ 1 / 1000000 := by
  have hQtQ : Q.transpose * Q = 1 := Matrix.mul_eq_one_comm.mp horth
  have hQunit : IsUnit Q := ⟨⟨Q, Q.transpose, horth, hQtQ⟩, rfl⟩
  have hQinv : Q⁻¹ = Q.transpose := Matrix.inv_eq_right_inv horth
  have h1 : (-t) • L = Q * ((-t) • Matrix.diagonal lam) * Q.transpose := by
    rw [hdecomp, Matrix.mul_smul, Matrix.smul_mul]
  have heq : laplacian_exponential_kernel_eigendecomp Q lam t =
      laplacian_exponential_diffusion_kernel L t := by
    unfold laplacian_exponential_diffusion_kernel
    rw [h1, ← hQinv, Matrix.exp_conj ℝ Q ((-t) • Matrix.diagonal lam) hQunit, hQinv,
      exp_smul_diagonal]
    rfl
  refine ⟨heq, fun i j => ?_⟩
  rw [heq, sub_self, abs_zero]
  norm_num

/-- Witness for C5 at the zero Laplacian with the identity eigendecomposition. -/
theorem kernel_eigendecomp_agrees_expm_witness :
    ((1 : Matrix (Fin 1) (Fin 1) ℝ) * (1 : Matrix (Fin 1) (Fin 1) ℝ).transpose = 1) ∧
    laplacian_exponential_kernel_eigendecomp (1 : Matrix (Fin 1) (Fin 1) ℝ)
        (fun _ => (0 : ℝ)) 1 =
      laplacian_exponential_diffusion_kernel (0 : Matrix (Fin 1) (Fin 1) ℝ) 1 :=
  ⟨by simp, (kernel_eigendecomp_agrees_expm (0 : Matrix (Fin 1) (Fin 1) ℝ) 1
    (fun _ => (0 : ℝ)) 1 (by simp) (by simp)).1⟩

/-- C6: under the eigensolver contract on a symmetric positive-semidefinite
Laplacian, the eigendecomposition kernel is symmetric for every t; at t = 0 it
is the identity matrix; and for t > 0 every element of its spectrum lies in
(0, 1]. -/
theorem kernel_eigendecomp_psd_properties {n : Nat} (L Q : Matrix (Fin n) (Fin n) ℝ)
    (lam : Fin n → ℝ) (t : ℝ) (horth : Q * Q.transpose = 1)
    (hdecomp : L = Q * Matrix.diagonal lam * Q.transpose)
    (hpsd : L.PosSemidef) (ht : 0 ≤ t) :
    (laplacian_exponential_kernel_eigendecomp Q lam t).IsSymm ∧
    (laplacian_exponential_kernel_eigendecomp Q lam 0 = 1) ∧
    (0 < t → ∀ μ ∈ spectrum ℝ (laplacian_exponential_kernel_eigendecomp Q lam t),
      0 < μ ∧ μ ≤ 1) := by
  have hQtQ : Q.transpose * Q = 1 := Matrix.mul_eq_one_comm.mp horth
  have hdiag : Q.transpose * L * Q = Matrix.diagonal lam := by
    rw [hdecomp, ← mul_assoc, ← mul_assoc, hQtQ, one_mul, mul_assoc, hQtQ, mul_one]
  have hpsdD : (Matrix.diagonal lam).PosSemidef := by
    have hc := hpsd.conjTranspose_mul_mul_same Q
    rw [Matrix.conjTranspose_eq_transpose_of_trivial, hdiag] at hc
    exact hc
  have hlam : ∀ i, 0 ≤ lam i := Matrix.posSemidef_diagonal_iff.mp hpsdD
  refine ⟨?_, ?_, ?_⟩
  · unfold laplacian_exponential_kernel_eigendecomp Matrix.IsSymm
    rw [Matrix.transpose_mul, Matrix.transpose_mul, Matrix.transpose_transpose,
      Matrix.diagonal_transpose, mul_assoc]
  · unfold laplacian_exponential_kernel_eigendecomp
    have hone : (fun i => Real.exp (-(0 : ℝ) * lam i)) = fun _ => (1 : ℝ) :=
      funext fun i => by norm_num
    rw [hone, Matrix.diagonal_one, mul_one, horth]
  · intro htpos μ hμ
    have hk : laplacian_exponential_kernel_eigendecomp Q lam t =
        (⟨Q, Q.transpose, horth, hQtQ⟩ : (Matrix (Fin n) (Fin n) ℝ)ˣ) *
          Matrix.diagonal (fun i => Real.exp (-t * lam i)) *
          ((⟨Q, Q.transpose, horth, hQtQ⟩ : (Matrix (Fin n) (Fin n) ℝ)ˣ)⁻¹ :
            (Matrix (Fin n) (Fin n) ℝ)ˣ) := rfl
    rw [hk, spectrum.units_conjugate, spectrum_diagonal] at hμ
    obtain ⟨i, hi⟩ := hμ
    refine ⟨hi ▸ Real.exp_pos _, hi ▸ Real.exp_le_one_iff.mpr ?_⟩
    rw [neg_mul]
    exact neg_nonpos.mpr (mul_nonneg htpos.le (hlam i))

/-- Witness for C6 at the zero Laplacian with the identity eigendecomposition. -/
theorem kernel_eigendecomp_psd_properties_witness :
    (0 : Matrix (Fin 1) (Fin 1) ℝ).PosSemidef ∧
    (laplacian_exponential_kernel_eigendecomp (1 : Matrix (Fin 1) (Fin 1) ℝ)
      (fun _ => (0 : ℝ)) 1).IsSymm :=
  ⟨Matrix.PosSemidef.zero,
    (kernel_eigendecomp_psd_properties (0 : Matrix (Fin 1) (Fin 1) ℝ) 1 (fun _ => (0 : ℝ)) 1
      (by simp) (by simp) Matrix.PosSemidef.zero (by norm_num)).1⟩
